import Mathlib

/-!
Verification of the chunked-file core of the Notion storage driver.

The Go source (`drivers/notion`) splits a large logical file into bounded
chunks on upload (`putChunkedFile` in `driver.go`) and reconstructs an
arbitrary byte range over those chunks on download
(`ChunkedRangeReadCloser.RangeRead` and `ChunkedReader.Read`).

This file gives a shallow embedding of that core:
 * machine `int64` values become `Int` (no arithmetic here comes close to
   overflowing 64 bits for the constants involved, and all claims quantify
   over mathematical integers the way the spec does);
 * the external world (the Notion metadata service that resolves a chunk's
   transient download URL, the HTTP byte-range fetch, and the open response
   body) is a `ReadInput` of oracles, so one `Read` call of the Go code
   becomes the pure step function `chunkedRead`, which also returns the
   list of externally visible actions (resolve / open / sleep / body read)
   that the call performs;
 * the success-path semantics (every resolution and every remote read
   succeeds and the backend honours byte ranges) is the particular oracle
   `successInput`.
-/

namespace Notion

/-- A byte of file content.  The claims never compute with byte values, so a
plain `Nat` stands for a byte. -/
abbrev Byte := Nat

/-- The content of an (open or planned) remote read: a list of bytes. -/
abbrev Bytes := List Byte

/-- Embedding of the `FileChunk` record of `part_003` (the fields the chunk
planner writes and the range reader uses; the database bookkeeping fields
`ID`, `FileID`, `Deleted` and the timestamps play no role in any claim). -/
structure FileChunk where
  chunkIndex : Int
  chunkSize : Int
  startOffset : Int
  endOffset : Int
  notionPageID : String
  sha1 : String
  deriving DecidableEq

/-- Embedding of `http_range.Range`: a requested byte range, `length = -1`
meaning "to the end of the file". -/
structure HttpRange where
  start : Int
  length : Int
  deriving DecidableEq

/-- Embedding of `ChunkedRangeReadCloser` (the `notionClient` handle and the
`Closers` bookkeeping carry no data relevant to the claims). -/
structure ChunkedRangeReadCloser where
  chunks : List FileChunk
  fileSize : Int
  deriving DecidableEq

/-- Embedding of the mutable `ChunkedReader` state.  `currentReader` holds
the not-yet-consumed bytes of the open remote response body (`nil` in Go
becomes `none`). -/
structure ChunkedReader where
  chunks : List FileChunk
  requestStart : Int
  requestEnd : Int
  currentChunk : Nat
  currentReader : Option Bytes
  currentOffset : Int
  totalRead : Int
  deriving DecidableEq

/-- The structured content of the errors `RangeRead` can return (Go builds
them with `fmt.Errorf`; the constructors record exactly the data interpolated
into the message). -/
inductive RangeErr where
  | invalidStart (start : Int)
  | startExceedsSize (start fileSize : Int)
  | noChunksFound (start endMinusOne fileSize : Int) (totalChunks : Nat)
  deriving DecidableEq

/-- The structured content of the errors (and the end-of-data signal) a
`ChunkedReader.Read` call can return.  `resolveFailed`/`openFailed` record
the chunk index, the attempt count and the underlying message, exactly the
data Go interpolates into the corresponding `fmt.Errorf`.  `nilReader`
models the structurally unreachable fall-through of the retry loop. -/
inductive ReadError where
  | eof
  | resolveFailed (chunkIdx retries : Nat) (msg : String)
  | noFiles (chunkIdx : Nat)
  | openFailed (chunkIdx retries : Nat) (msg : String)
  | transfer (msg : String)
  | nilReader
  deriving DecidableEq

/-- The error/end signal an open response body can produce on one
`currentReader.Read` call: clean end of data, or a transport failure. -/
inductive BodyErr where
  | atEOF
  | failed (msg : String)
  deriving DecidableEq

/-- The externally visible operations one `ChunkedReader.Read` call performs,
in order: a `GetPageProperty` round trip, an HTTP range open
(`createChunkReader` with the given intra-chunk offset and length), a
backoff sleep of the given number of seconds, or a read of at most `cap`
bytes from the open body. -/
inductive ReadAction where
  | resolve (pageID : String)
  | openRead (url : String) (offset length : Int)
  | sleep (seconds : Nat)
  | bodyRead (cap : Nat)
  deriving DecidableEq

/-- The oracles standing for the external world during one or more `Read`
calls: `resolve attempt pageID` is the outcome of `GetPageProperty` (the
list of file URLs of the returned property), `openRead attempt url off len`
the outcome of `createChunkReader`, and `bodyRead handle cap` the bytes,
error signal and successor handle of one read of at most `cap` bytes from
an open body. -/
structure ReadInput where
  resolve : Nat → String → Except String (List String)
  openRead : Nat → String → Int → Int → Except String Bytes
  bodyRead : Bytes → Nat → Bytes × Option BodyErr × Bytes

/-- `chunkStart` of `ChunkedReader.Read`:
`max(r.requestStart, chunk.StartOffset) - chunk.StartOffset`. -/
def subStart (requestStart : Int) (c : FileChunk) : Int :=
  max requestStart c.startOffset - c.startOffset

/-- `chunkEnd` of `ChunkedReader.Read`:
`min(r.requestEnd, chunk.EndOffset) - chunk.StartOffset`. -/
def subEnd (requestEnd : Int) (c : FileChunk) : Int :=
  min requestEnd c.endOffset - c.startOffset

/-- The overlap test of `RangeRead`:
`chunk.StartOffset < requestEnd && chunk.EndOffset > httpRange.Start`. -/
def overlapsB (start requestEnd : Int) (c : FileChunk) : Bool :=
  decide (c.startOffset < requestEnd) && decide (c.endOffset > start)

/-- The request end derived by `RangeRead`: the `-1` sentinel resolves to
`fileSize - start`, and `start + length` is clamped to `fileSize`. -/
def derivedEnd (fileSize : Int) (rng : HttpRange) : Int :=
  let length := if rng.length = -1 then fileSize - rng.start else rng.length
  let requestEnd := rng.start + length
  if requestEnd > fileSize then fileSize else requestEnd

/-- Embedding of `ChunkedRangeReadCloser.RangeRead` (`part_003`, lines
303-344): bounds checks, `-1` resolution, clamping, chunk selection by
`overlapsB`, and construction of the initial `ChunkedReader`. -/
def rangeRead (c : ChunkedRangeReadCloser) (rng : HttpRange) :
    Except RangeErr ChunkedReader :=
  if rng.start < 0 then .error (.invalidStart rng.start)
  else if rng.start ≥ c.fileSize then
    .error (.startExceedsSize rng.start c.fileSize)
  else
    let requestEnd := derivedEnd c.fileSize rng
    let needed := c.chunks.filter (overlapsB rng.start requestEnd)
    if needed.isEmpty then
      .error (.noChunksFound rng.start (requestEnd - 1) c.fileSize
        c.chunks.length)
    else
      .ok { chunks := needed, requestStart := rng.start,
            requestEnd := requestEnd, currentChunk := 0,
            currentReader := none, currentOffset := 0, totalRead := 0 }

/-- The Go retry loop has `maxRetries = 3`. -/
def maxRetries : Nat := 3

/-- One-to-one embedding of the retry loop in `ChunkedReader.Read`
(`part_003`, lines 375-405), recursing on the number of remaining loop
iterations.  `retry` is the loop counter; each iteration resolves the
chunk's page property, fails fatally if the property lists no files, then
opens the bounded remote read; a retryable failure sleeps `retry + 1`
seconds and continues, and a failure with `retry = maxRetries - 1` is
fatal, carrying the chunk index, the attempt count `retry + 1` and the
underlying message.  The `fuel = 0` case is the structurally unreachable
fall-through of the `for` loop (Go would proceed with a nil reader). -/
def attemptLoop (inp : ReadInput) (chunkIdx : Nat) (pageID : String)
    (off len : Int) : Nat → Nat → List ReadAction × Except ReadError Bytes
  | _, 0 => ([], .error .nilReader)
  | retry, remaining + 1 =>
    match inp.resolve retry pageID with
    | .error msg =>
      if retry = maxRetries - 1 then
        ([.resolve pageID], .error (.resolveFailed chunkIdx (retry + 1) msg))
      else
        let rest := attemptLoop inp chunkIdx pageID off len (retry + 1)
          remaining
        (.resolve pageID :: .sleep (retry + 1) :: rest.1, rest.2)
    | .ok files =>
      match files with
      | [] => ([.resolve pageID], .error (.noFiles chunkIdx))
      | url :: _ =>
        match inp.openRead retry url off len with
        | .error msg =>
          if retry = maxRetries - 1 then
            ([.resolve pageID, .openRead url off len],
             .error (.openFailed chunkIdx (retry + 1) msg))
          else
            let rest := attemptLoop inp chunkIdx pageID off len (retry + 1)
              remaining
            (.resolve pageID :: .openRead url off len ::
               .sleep (retry + 1) :: rest.1, rest.2)
        | .ok body => ([.resolve pageID, .openRead url off len], .ok body)

/-- Entering a chunk: run the retry loop for the chunk's page with the
intra-chunk sub-range `[chunkStart, chunkEnd)` recomputed from the request
bounds and the chunk's offsets (`part_003`, lines 369-373 and 394). -/
def enterChunk (inp : ReadInput) (chunkIdx : Nat) (c : FileChunk)
    (requestStart requestEnd : Int) : List ReadAction × Except ReadError Bytes :=
  attemptLoop inp chunkIdx c.notionPageID (subStart requestStart c)
    (subEnd requestEnd c - subStart requestStart c) 0 maxRetries

/-- The tail of `ChunkedReader.Read` (`part_003`, lines 411-438): truncate
the caller's buffer to the remaining request length, read from the open
body, account the bytes, and handle clean completion (close, advance the
chunk cursor, swallow the end signal if more chunks and bytes remain) or a
transport failure (close and discard the reader, keep the cursor). -/
def readBody (inp : ReadInput) (bufSize : Nat) (r : ChunkedReader)
    (h : Bytes) : List ReadAction × Bytes × Option ReadError × ChunkedReader :=
  let remaining := r.requestEnd - r.requestStart - r.totalRead
  let cap := min bufSize remaining.toNat
  match inp.bodyRead h cap with
  | (bs, none, h2) =>
    ([.bodyRead cap], bs, none,
     { r with currentReader := some h2, totalRead := r.totalRead + bs.length })
  | (bs, some .atEOF, _) =>
    let total2 := r.totalRead + bs.length
    let chunk2 := r.currentChunk + 1
    ([.bodyRead cap], bs,
     if total2 < r.requestEnd - r.requestStart ∧ chunk2 < r.chunks.length
       then none else some .eof,
     { r with currentReader := none, currentChunk := chunk2,
              totalRead := total2 })
  | (bs, some (.failed msg), _) =>
    ([.bodyRead cap], bs, some (.transfer msg),
     { r with currentReader := none, totalRead := r.totalRead + bs.length })

/-- Prefix the action trace of a `Read` outcome with the actions already
performed earlier in the same call. -/
def prependActs (acts : List ReadAction)
    (x : List ReadAction × Bytes × Option ReadError × ChunkedReader) :
    List ReadAction × Bytes × Option ReadError × ChunkedReader :=
  (acts ++ x.1, x.2)

/-- The reader state right after the retry loop succeeded: Go sets
`r.currentReader = reader` and `r.currentOffset = chunkStart`. -/
def openedOn (r : ChunkedReader) (c : FileChunk) (h : Bytes) : ChunkedReader :=
  { r with currentReader := some h, currentOffset := subStart r.requestStart c }

/-- Embedding of one call of `ChunkedReader.Read` (`part_003`, lines
358-439), with `bufSize` the length of the caller's buffer `p`.  Returns
the performed actions, the delivered bytes, the returned error (if any)
and the successor reader state. -/
def chunkedRead (inp : ReadInput) (bufSize : Nat) (r : ChunkedReader) :
    List ReadAction × Bytes × Option ReadError × ChunkedReader :=
  if r.totalRead ≥ r.requestEnd - r.requestStart then
    ([], [], some .eof, r)
  else
    match r.currentReader with
    | some h => readBody inp bufSize r h
    | none =>
      if hlt : r.currentChunk < r.chunks.length then
        match enterChunk inp r.currentChunk (r.chunks.get ⟨r.currentChunk, hlt⟩)
            r.requestStart r.requestEnd with
        | (acts, .error e) => (acts, [], some e, r)
        | (acts, .ok h) =>
          prependActs acts (readBody inp bufSize
            (openedOn r (r.chunks.get ⟨r.currentChunk, hlt⟩) h) h)
      else ([], [], some .eof, r)

/-- A caller's read loop: call `chunkedRead` until it returns an error or
the end-of-data signal, concatenating the delivered bytes (this is what
`io.Copy` does with the reader).  `fuel` bounds the number of calls. -/
def runReads (inp : ReadInput) (bufSize : Nat) :
    Nat → ChunkedReader → Bytes × Option ReadError
  | 0, _ => ([], none)
  | fuel + 1, r =>
    match chunkedRead inp bufSize r with
    | (_, bs, none, r2) =>
      let rest := runReads inp bufSize fuel r2
      (bs ++ rest.1, rest.2)
    | (_, bs, some e, _) => (bs, some e)

/-! ## The write path: constants, upload dispatch and the chunk planner -/

/-- `MaxChunkSize = 4.5 * 1024 * 1024 * 1024` of `driver.go` (the Go
constant expression evaluates to exactly this integer). -/
def MaxChunkSize : Int := 4831838208

/-- `ChunkThreshold = 5 * 1024 * 1024 * 1024` of `driver.go`. -/
def ChunkThreshold : Int := 5 * 1024 * 1024 * 1024

/-- Which upload path `Notion.Put` takes. -/
inductive PutPath where
  | chunked
  | single
  deriving DecidableEq

/-- The dispatch of `Notion.Put` (`driver.go`, lines 448-454):
`if fileSize > ChunkThreshold` take the chunked path, else the single-file
path. -/
def putDispatch (fileSize : Int) : PutPath :=
  if fileSize > ChunkThreshold then .chunked else .single

/-- The chunk-record planning loop of `Notion.putChunkedFile` (`driver.go`,
lines 494-569), abstracted over the externally produced page IDs and
content hashes (`CreateDatabasePage` and `UploadAndUpdateFilePut` results
for chunk `i`): `chunkCount = (fileSize + maxChunkSize - 1) / maxChunkSize`
records, chunk `i` spanning `[i * maxChunkSize, min((i+1) * maxChunkSize,
fileSize))`.  For the positive sizes at which the loop runs, Go's truncated
`int64` division agrees with `Int` division. -/
def planChunks (fileSize maxChunkSize : Int)
    (pageIDs shas : Nat → String) : List FileChunk :=
  let chunkCount := (fileSize + maxChunkSize - 1) / maxChunkSize
  (List.range chunkCount.toNat).map (fun (i : Nat) =>
    let startOffset := (i : Int) * maxChunkSize
    let rawEnd := startOffset + maxChunkSize
    let endOffset := if rawEnd > fileSize then fileSize else rawEnd
    { chunkIndex := (i : Int), chunkSize := endOffset - startOffset,
      startOffset := startOffset, endOffset := endOffset,
      notionPageID := pageIDs i, sha1 := shas i })

/-- The chunked upload path plans with the `MaxChunkSize` constant
(`driver.go`, lines 496 and 524-528). -/
def putChunkedPlan (fileSize : Int) (pageIDs shas : Nat → String) :
    List FileChunk :=
  planChunks fileSize MaxChunkSize pageIDs shas

/-! ## The contiguity invariant of §3 of the spec -/

/-- The chunk list is a gapless partition of `[off, …)` into nonempty
intervals in storage order (the §3 invariant relative to a starting
offset). -/
def contiguousFromB : Int → List FileChunk → Bool
  | _, [] => true
  | off, c :: rest =>
    (c.startOffset == off) && decide (off < c.endOffset) &&
      contiguousFromB c.endOffset rest

/-- The offset where a contiguous chunk list ends (equals `totalSize` for a
list satisfying the full §3 invariant). -/
def endOf : Int → List FileChunk → Int
  | off, [] => off
  | _, c :: rest => endOf c.endOffset rest

/-- The logical file content between offsets `a` (inclusive) and `b`
(exclusive). -/
def sliceI (data : Bytes) (a b : Int) : Bytes :=
  (data.drop a.toNat).take (b - a).toNat

/-- The bytes the remote object of chunk `c` holds: the logical file's
bytes `[startOffset, endOffset)`. -/
def chunkBytes (data : Bytes) (c : FileChunk) : Bytes :=
  sliceI data c.startOffset c.endOffset

/-- The oracle of the fully successful world: every resolution returns the
chunk's page as its single file URL, every open succeeds and the backend
honours the requested byte range of the object `content url`
(`createChunkReader` requests `bytes=off-(off+len-1)` when `len > 0` and
`bytes=off-` otherwise), and the open body hands out its bytes in order,
signalling clean end-of-data once empty. -/
def successInput (content : String → Bytes) : ReadInput where
  resolve := fun _ pageID => .ok [pageID]
  openRead := fun _ url off len =>
    .ok (if 0 < len then ((content url).drop off.toNat).take len.toNat
         else (content url).drop off.toNat)
  bodyRead := fun h cap =>
    match h with
    | [] => ([], some .atEOF, [])
    | _ => (h.take cap, none, h.drop cap)

/-! ## Specification-side predicates used to state and prove claim C1 -/

/-- The chunk list suffix `cs`, read starting at logical position `pos`,
covers the rest of the request `[s, e)`: the next chunk's negotiated
sub-range starts exactly at `pos` (`max s start = pos`), is nonempty
(`pos < end`), and if the chunk stops short of `e` the remaining chunks
cover onward from its end. -/
def chainCov (s e : Int) : Int → List FileChunk → Prop
  | pos, [] => e ≤ pos
  | pos, c :: rest =>
    max s c.startOffset = pos ∧ pos < c.endOffset ∧
      (c.endOffset < e → chainCov s e c.endOffset rest)

/-- The inductive invariant of the success-path run of `chunkedRead`: the
reader is for request `[s, e)` over `data`, has delivered `totalRead`
bytes, every chunk it holds resolves (via `content`) to the right slice of
`data`, and — unless the request is already satisfied — the open body (if
any) holds exactly the bytes `[s + totalRead, min e end)` of the current
chunk and the remaining chunks cover the rest of the request. -/
def ReaderInv (data : Bytes) (content : String → Bytes) (s e : Int)
    (r : ChunkedReader) : Prop :=
  r.requestStart = s ∧ r.requestEnd = e ∧ 0 ≤ s ∧ e ≤ (data.length : Int) ∧
  0 ≤ r.totalRead ∧ r.totalRead ≤ e - s ∧
  (∀ c ∈ r.chunks, content c.notionPageID = chunkBytes data c ∧
    0 ≤ c.startOffset) ∧
  (r.totalRead < e - s →
    (r.currentReader = none →
      chainCov s e (s + r.totalRead) (r.chunks.drop r.currentChunk)) ∧
    (∀ rem, r.currentReader = some rem →
      ∃ c rest, r.chunks.drop r.currentChunk = c :: rest ∧
        rem = sliceI data (s + r.totalRead) (min e c.endOffset) ∧
        s + r.totalRead ≤ min e c.endOffset ∧
        (c.endOffset < e →
          chainCov s e c.endOffset (r.chunks.drop (r.currentChunk + 1)))))

/-- An upper bound on the number of `chunkedRead` calls a success-path run
still needs: every call either delivers at least one byte, retires one
chunk, or is the final end-of-data call. -/
def readerFuel (r : ChunkedReader) : Nat :=
  (r.requestEnd - r.requestStart - r.totalRead).toNat +
    (r.chunks.length - r.currentChunk) + 1

/-! ## Concrete fixtures (used by witness theorems) -/

/-- A two-chunk layout of a six-byte logical file: `[0,4)` and `[4,6)`. -/
def chunkA : FileChunk :=
  { chunkIndex := 0, chunkSize := 4, startOffset := 0, endOffset := 4,
    notionPageID := "p0", sha1 := "" }

/-- The second chunk of the fixture layout. -/
def chunkB : FileChunk :=
  { chunkIndex := 1, chunkSize := 2, startOffset := 4, endOffset := 6,
    notionPageID := "p1", sha1 := "" }

/-- The fixture `ChunkedRangeReadCloser` over the two chunks. -/
def closerAB : ChunkedRangeReadCloser :=
  { chunks := [chunkA, chunkB], fileSize := 6 }

/-- The fixture logical file content. -/
def dataAB : Bytes := [10, 11, 12, 13, 14, 15]

/-- The remote objects of the fixture chunks. -/
def contentAB : String → Bytes := fun s =>
  if s = "p0" then [10, 11, 12, 13]
  else if s = "p1" then [14, 15] else []

/-- A world where every resolution fails. -/
def failingInput : ReadInput where
  resolve := fun _ _ => .error "boom"
  openRead := fun _ _ _ _ => .error "open"
  bodyRead := fun h cap => (h.take cap, none, h.drop cap)

/-- A world where resolution and open succeed but the open body fails with
a transport error after one byte. -/
def bodyFailInput : ReadInput where
  resolve := fun _ pageID => .ok [pageID]
  openRead := fun _ _ _ _ => .ok [1, 2, 3]
  bodyRead := fun _ _ => ([7], some (.failed "conn"), [])

/-- A mid-stream reader over the fixture layout: request `[1, 5)`, one byte
delivered, a body with two bytes still open on chunk `0`. -/
def readerMid : ChunkedReader :=
  { chunks := [chunkA, chunkB], requestStart := 1, requestEnd := 5,
    currentChunk := 0, currentReader := some [12, 13], currentOffset := 1,
    totalRead := 1 }

/-- The fixture reader `rangeRead` builds for the request `[1, 5)` over the
two-chunk closer. -/
def readerFresh : ChunkedReader :=
  { chunks := [chunkA, chunkB], requestStart := 1, requestEnd := 5,
    currentChunk := 0, currentReader := none, currentOffset := 0,
    totalRead := 0 }

/-- The fixture reader after the whole request `[1, 5)` has been
delivered. -/
def readerDone : ChunkedReader :=
  { chunks := [chunkA, chunkB], requestStart := 1, requestEnd := 5,
    currentChunk := 2, currentReader := none, currentOffset := 0,
    totalRead := 4 }

/-! ## Basic lemmas about the contiguity invariant -/

lemma contigB_cons {off : Int} {c : FileChunk} {rest : List FileChunk} :
    contiguousFromB off (c :: rest) = true ↔
      c.startOffset = off ∧ off < c.endOffset ∧
        contiguousFromB c.endOffset rest = true := by
  simp [contiguousFromB, Bool.and_eq_true, decide_eq_true_eq, and_assoc]

lemma contigB_mono : ∀ {cs : List FileChunk} {off : Int},
    contiguousFromB off cs = true →
    ∀ c ∈ cs, off ≤ c.startOffset ∧ c.startOffset < c.endOffset := by
  intro cs
  induction cs with
  | nil => intro off _ c hc; cases hc
  | cons c rest ih =>
    intro off h c2 hc2
    rw [contigB_cons] at h
    obtain ⟨h1, h2, h3⟩ := h
    rcases List.mem_cons.mp hc2 with rfl | hc2
    · exact ⟨le_of_eq h1.symm, by omega⟩
    · have := ih h3 c2 hc2
      exact ⟨by omega, this.2⟩

lemma contigB_boundary : ∀ {cs : List FileChunk} {off p : Int},
    contiguousFromB off cs = true → (∃ c0 ∈ cs, c0.startOffset = p) →
    ∀ c ∈ cs, c.endOffset ≤ p ∨ p ≤ c.startOffset := by
  intro cs
  induction cs with
  | nil => intro off p _ _ c hc; cases hc
  | cons c rest ih =>
    intro off p h hex c2 hc2
    rw [contigB_cons] at h
    obtain ⟨h1, h2, h3⟩ := h
    obtain ⟨c0, hc0, hc0p⟩ := hex
    rcases List.mem_cons.mp hc0 with rfl | hc0
    · -- the boundary is the head chunk's start: p = off
      rcases List.mem_cons.mp hc2 with rfl | hc2
      · exact Or.inr (le_of_eq (hc0p ▸ rfl))
      · have := contigB_mono h3 c2 hc2
        exact Or.inr (by omega)
    · -- the boundary lies in the tail, at or beyond the head's end
      have hp : c.endOffset ≤ p := by
        have := contigB_mono h3 c0 hc0
        omega
      rcases List.mem_cons.mp hc2 with rfl | hc2
      · exact Or.inl hp
      · exact ih h3 ⟨c0, hc0, hc0p⟩ c2 hc2

/-! ## Lemmas about logical-file slices -/

lemma sliceI_eq_nil {d : Bytes} {a b : Int} (h : b ≤ a) : sliceI d a b = [] := by
  unfold sliceI
  rw [show (b - a).toNat = 0 by omega]
  simp

lemma sliceI_length {d : Bytes} {a b : Int} :
    (sliceI d a b).length = min (b - a).toNat (d.length - a.toNat) := by
  simp [sliceI, List.length_take, List.length_drop]

lemma sliceI_append {d : Bytes} {a b c : Int} (ha : 0 ≤ a) (hab : a ≤ b)
    (hbc : b ≤ c) : sliceI d a b ++ sliceI d b c = sliceI d a c := by
  unfold sliceI
  rw [show (c - a).toNat = (b - a).toNat + (c - b).toNat by omega,
    List.take_add, List.drop_drop,
    show a.toNat + (b - a).toNat = b.toNat by omega]

lemma sliceI_take {d : Bytes} {a b : Int} (k : Nat) :
    (sliceI d a b).take k = sliceI d a (min b (a + k)) := by
  unfold sliceI
  rw [List.take_take]
  congr 1
  omega

lemma sliceI_drop {d : Bytes} {a b : Int} (ha : 0 ≤ a) (k : Nat) :
    (sliceI d a b).drop k = sliceI d (min b (a + k)) b := by
  unfold sliceI
  rw [List.drop_take, List.drop_drop]
  by_cases hk : b ≤ a + (k : Int)
  · rw [show (b - a).toNat - k = 0 by omega,
      show (b - min b (a + (k : Int))).toNat = 0 by omega]
    simp
  · rw [show (b - a).toNat - k = (b - min b (a + (k : Int))).toNat by omega,
      show a.toNat + k = (min b (a + (k : Int))).toNat by omega]

lemma chunkBytes_slice {d : Bytes} {c : FileChunk} {pos m : Int}
    (h0 : 0 ≤ c.startOffset) (h1 : c.startOffset ≤ pos) (h2 : pos ≤ m)
    (h3 : m ≤ c.endOffset) :
    ((chunkBytes d c).drop (pos - c.startOffset).toNat).take (m - pos).toNat
      = sliceI d pos m := by
  unfold chunkBytes
  rw [sliceI_drop h0,
    show min c.endOffset (c.startOffset + ((pos - c.startOffset).toNat : Int))
      = pos by omega,
    sliceI_take,
    show min c.endOffset (pos + ((m - pos).toNat : Int)) = m by omega]

/-! ## Characterization lemmas for the embedded operations -/

lemma rangeRead_ok {crc : ChunkedRangeReadCloser} {rng : HttpRange}
    {rdr : ChunkedReader} (h : rangeRead crc rng = .ok rdr) :
    0 ≤ rng.start ∧ rng.start < crc.fileSize ∧
    rdr.chunks =
      crc.chunks.filter (overlapsB rng.start (derivedEnd crc.fileSize rng)) ∧
    rdr.chunks ≠ [] ∧
    rdr.requestStart = rng.start ∧
    rdr.requestEnd = derivedEnd crc.fileSize rng ∧
    rdr.currentChunk = 0 ∧ rdr.currentReader = none ∧ rdr.totalRead = 0 := by
  unfold rangeRead at h
  split at h
  · cases h
  · split at h
    · cases h
    · dsimp only at h
      split at h
      · cases h
      · next hneg hge hne =>
        injection h with h2
        subst h2
        refine ⟨by omega, by omega, rfl, ?_, rfl, rfl, rfl, rfl, rfl⟩
        intro hnil
        apply hne
        rw [List.isEmpty_iff]
        exact hnil

lemma derivedEnd_of_neg_one (fileSize : Int) (rng : HttpRange)
    (h : rng.length = -1) : derivedEnd fileSize rng = fileSize := by
  simp only [derivedEnd, h, if_pos]
  split <;> omega

lemma derivedEnd_of_not_neg_one (fileSize : Int) (rng : HttpRange)
    (h : rng.length ≠ -1) :
    derivedEnd fileSize rng = min (rng.start + rng.length) fileSize := by
  simp only [derivedEnd, h, if_neg, if_false]
  split <;> omega

lemma derivedEnd_le (fileSize : Int) (rng : HttpRange) :
    derivedEnd fileSize rng ≤ fileSize := by
  by_cases h : rng.length = -1
  · rw [derivedEnd_of_neg_one fileSize rng h]
  · rw [derivedEnd_of_not_neg_one fileSize rng h]
    omega

lemma derivedEnd_ge (fileSize : Int) (rng : HttpRange)
    (h : 0 ≤ rng.length ∨ rng.length = -1) (hs : rng.start < fileSize) :
    rng.start ≤ derivedEnd fileSize rng := by
  rcases h with h | h
  · rw [derivedEnd_of_not_neg_one fileSize rng (by omega)]
    omega
  · rw [derivedEnd_of_neg_one fileSize rng h]
    omega

lemma readBody_spec (inp : ReadInput) (bufSize : Nat) (r : ChunkedReader)
    (h : Bytes) :
    ∃ bs err r2,
      readBody inp bufSize r h =
        ([.bodyRead
            (min bufSize (r.requestEnd - r.requestStart - r.totalRead).toNat)],
          bs, err, r2) ∧
      bs = (inp.bodyRead h
        (min bufSize (r.requestEnd - r.requestStart - r.totalRead).toNat)).1 ∧
      r2.totalRead = r.totalRead + bs.length ∧ r2.chunks = r.chunks ∧
      r2.requestStart = r.requestStart ∧ r2.requestEnd = r.requestEnd := by
  rcases hbr : inp.bodyRead h
      (min bufSize (r.requestEnd - r.requestStart - r.totalRead).toNat)
    with ⟨bs, e?, h2⟩
  rcases e? with _ | e
  · refine ⟨bs, none,
      { r with currentReader := some h2,
               totalRead := r.totalRead + bs.length }, ?_, ?_, rfl, rfl, rfl, rfl⟩
    · simp [readBody, hbr]
    · rfl
  · rcases e with _ | msg
    · refine ⟨bs,
        if r.totalRead + bs.length < r.requestEnd - r.requestStart ∧
            r.currentChunk + 1 < r.chunks.length then none
          else some .eof,
        { r with currentReader := none, currentChunk := r.currentChunk + 1,
                 totalRead := r.totalRead + bs.length }, ?_, ?_, rfl, rfl, rfl, rfl⟩
      · simp [readBody, hbr]
      · rfl
    · refine ⟨bs, some (.transfer msg),
        { r with currentReader := none,
                 totalRead := r.totalRead + bs.length }, ?_, ?_, rfl, rfl, rfl, rfl⟩
      · simp [readBody, hbr]
      · rfl

lemma attemptLoop_actions (inp : ReadInput) (chunkIdx : Nat) (pageID : String)
    (off len : Int) : ∀ (fuel retry : Nat),
    ∀ a ∈ (attemptLoop inp chunkIdx pageID off len retry fuel).1,
      a = .resolve pageID ∨ (∃ u, a = .openRead u off len) ∨
        ∃ k, a = .sleep k := by
  intro fuel
  induction fuel with
  | zero => intro retry a ha; simp [attemptLoop] at ha
  | succ n ih =>
    intro retry a ha
    rcases hres : inp.resolve retry pageID with msg | files
    · simp only [attemptLoop, hres] at ha
      split at ha
      · simp at ha
        exact Or.inl ha
      · simp at ha
        rcases ha with rfl | rfl | ha
        · exact Or.inl rfl
        · exact Or.inr (Or.inr ⟨_, rfl⟩)
        · exact ih (retry + 1) a ha
    · rcases files with _ | ⟨url, more⟩
      · simp only [attemptLoop, hres] at ha
        simp at ha
        exact Or.inl ha
      · rcases hop : inp.openRead retry url off len with msg | body
        · simp only [attemptLoop, hres, hop] at ha
          split at ha
          · simp at ha
            rcases ha with rfl | rfl
            · exact Or.inl rfl
            · exact Or.inr (Or.inl ⟨_, rfl⟩)
          · simp at ha
            rcases ha with rfl | rfl | rfl | ha
            · exact Or.inl rfl
            · exact Or.inr (Or.inl ⟨_, rfl⟩)
            · exact Or.inr (Or.inr ⟨_, rfl⟩)
            · exact ih (retry + 1) a ha
        · simp only [attemptLoop, hres, hop] at ha
          simp at ha
          rcases ha with rfl | rfl
          · exact Or.inl rfl
          · exact Or.inr (Or.inl ⟨_, rfl⟩)

lemma enterChunk_actions (inp : ReadInput) (chunkIdx : Nat) (c : FileChunk)
    (requestStart requestEnd : Int) :
    ∀ a ∈ (enterChunk inp chunkIdx c requestStart requestEnd).1,
      a = .resolve c.notionPageID ∨
        (∃ u, a = .openRead u (subStart requestStart c)
          (subEnd requestEnd c - subStart requestStart c)) ∨
        ∃ k, a = .sleep k :=
  fun a ha => attemptLoop_actions inp chunkIdx c.notionPageID _ _ maxRetries 0 a ha

lemma chunkedRead_actions_none (inp : ReadInput) (bufSize : Nat)
    (r : ChunkedReader) (hcr : r.currentReader = none)
    (hcc : r.currentChunk < r.chunks.length) :
    ∀ a ∈ (chunkedRead inp bufSize r).1,
      a = .resolve (r.chunks.get ⟨r.currentChunk, hcc⟩).notionPageID ∨
      (∃ u, a = .openRead u
        (subStart r.requestStart (r.chunks.get ⟨r.currentChunk, hcc⟩))
        (subEnd r.requestEnd (r.chunks.get ⟨r.currentChunk, hcc⟩) -
          subStart r.requestStart (r.chunks.get ⟨r.currentChunk, hcc⟩))) ∨
      (∃ k, a = .sleep k) ∨ (∃ cap, a = .bodyRead cap) := by
  intro a ha
  unfold chunkedRead at ha
  split at ha
  · simp at ha
  · simp only [hcr, dif_pos hcc] at ha
    have hacts := enterChunk_actions inp r.currentChunk
      (r.chunks.get ⟨r.currentChunk, hcc⟩) r.requestStart r.requestEnd
    rcases henter : enterChunk inp r.currentChunk
        (r.chunks.get ⟨r.currentChunk, hcc⟩) r.requestStart r.requestEnd
      with ⟨acts, res⟩
    rw [henter] at hacts
    rcases res with e | hb
    · simp only [henter] at ha
      rcases hacts _ ha with h | ⟨u, h⟩ | ⟨k, h⟩
      · exact Or.inl h
      · exact Or.inr (Or.inl ⟨u, h⟩)
      · exact Or.inr (Or.inr (Or.inl ⟨k, h⟩))
    · simp only [henter, prependActs] at ha
      obtain ⟨bs, err, r2, heq, _, _, _, _, _⟩ :=
        readBody_spec inp bufSize
          (openedOn r (r.chunks.get ⟨r.currentChunk, hcc⟩) hb) hb
      rw [heq] at ha
      dsimp only at ha
      rw [List.mem_append] at ha
      rcases ha with ha | ha
      · rcases hacts _ ha with h | ⟨u, h⟩ | ⟨k, h⟩
        · exact Or.inl h
        · exact Or.inr (Or.inl ⟨u, h⟩)
        · exact Or.inr (Or.inr (Or.inl ⟨k, h⟩))
      · have : a = ReadAction.bodyRead (min bufSize
            ((openedOn r (r.chunks.get ⟨r.currentChunk, hcc⟩) hb).requestEnd -
              (openedOn r (r.chunks.get ⟨r.currentChunk, hcc⟩) hb).requestStart -
              (openedOn r (r.chunks.get ⟨r.currentChunk, hcc⟩) hb).totalRead).toNat) := by
          simpa using ha
        exact Or.inr (Or.inr (Or.inr ⟨_, this⟩))

/-! ## Lemmas about the chunk planner -/

lemma ite_gt_eq_min (x y : Int) : (if x > y then y else x) = min x y := by
  split <;> omega

lemma ceil_div_bounds (T M : Int) (hT : 0 < T) (hM : 0 < M) :
    T ≤ ((T + M - 1) / M) * M ∧ ((T + M - 1) / M) * M < T + M ∧
      0 < (T + M - 1) / M := by
  have h1 := Int.emod_add_ediv (T + M - 1) M
  have h2 := Int.emod_nonneg (T + M - 1) (show M ≠ 0 by omega)
  have h3 := Int.emod_lt_of_pos (T + M - 1) hM
  have hcm : ((T + M - 1) / M) * M = M * ((T + M - 1) / M) := mul_comm _ _
  refine ⟨by linarith, by linarith, ?_⟩
  by_contra hq
  push_neg at hq
  have hmq : M * ((T + M - 1) / M) ≤ M * 0 :=
    mul_le_mul_of_nonneg_left hq (le_of_lt hM)
  rw [mul_zero] at hmq
  linarith

lemma planChunks_length (T M : Int) (pid sha : Nat → String) :
    (planChunks T M pid sha).length = ((T + M - 1) / M).toNat := by
  simp [planChunks]

lemma planChunks_get (T M : Int) (pid sha : Nat → String) (i : Nat)
    (h : i < (planChunks T M pid sha).length) :
    (planChunks T M pid sha).get ⟨i, h⟩ =
      { chunkIndex := (i : Int),
        chunkSize := min ((i : Int) * M + M) T - (i : Int) * M,
        startOffset := (i : Int) * M,
        endOffset := min ((i : Int) * M + M) T,
        notionPageID := pid i, sha1 := sha i } := by
  unfold planChunks
  dsimp only
  rw [List.get_eq_getElem, List.getElem_map, List.getElem_range,
    ite_gt_eq_min]

/-! ## Claim C2 -/

/-- Claim C2: for `totalSize > 0` and `maxChunkSize > 0` the planning loop
of `putChunkedFile` produces exactly `ceil(totalSize / maxChunkSize)`
chunk records — the count `n` is pinned by `(n-1)*M < T ≤ n*M` — in
increasing index order, with `startOffset = i * maxChunkSize`,
`endOffset = min(startOffset + maxChunkSize, totalSize)` and
`chunkSize = endOffset - startOffset`; the bounds are contiguous, start at
0, end at `totalSize`, every chunk size is positive and at most
`maxChunkSize`, and every chunk except possibly the last has size exactly
`maxChunkSize`. -/
theorem C2_chunk_plan_layout (T M : Int) (pid sha : Nat → String)
    (hT : 0 < T) (hM : 0 < M) :
    planChunks T M pid sha ≠ [] ∧
    T ≤ ((planChunks T M pid sha).length : Int) * M ∧
    ((planChunks T M pid sha).length : Int) * M < T + M ∧
    (∀ i (h : i < (planChunks T M pid sha).length),
      ((planChunks T M pid sha).get ⟨i, h⟩).chunkIndex = (i : Int) ∧
      ((planChunks T M pid sha).get ⟨i, h⟩).startOffset = (i : Int) * M ∧
      ((planChunks T M pid sha).get ⟨i, h⟩).endOffset =
        min ((i : Int) * M + M) T ∧
      ((planChunks T M pid sha).get ⟨i, h⟩).chunkSize =
        ((planChunks T M pid sha).get ⟨i, h⟩).endOffset -
          ((planChunks T M pid sha).get ⟨i, h⟩).startOffset ∧
      ((planChunks T M pid sha).get ⟨i, h⟩).endOffset -
          ((planChunks T M pid sha).get ⟨i, h⟩).startOffset ≤ M ∧
      0 < ((planChunks T M pid sha).get ⟨i, h⟩).endOffset -
          ((planChunks T M pid sha).get ⟨i, h⟩).startOffset) ∧
    (∀ (h : 0 < (planChunks T M pid sha).length),
      ((planChunks T M pid sha).get ⟨0, h⟩).startOffset = 0) ∧
    (∀ i (hi : i + 1 < (planChunks T M pid sha).length),
      ((planChunks T M pid sha).get ⟨i, Nat.lt_of_succ_lt hi⟩).endOffset =
        ((planChunks T M pid sha).get ⟨i + 1, hi⟩).startOffset ∧
      ((planChunks T M pid sha).get ⟨i, Nat.lt_of_succ_lt hi⟩).endOffset -
        ((planChunks T M pid sha).get
          ⟨i, Nat.lt_of_succ_lt hi⟩).startOffset = M) ∧
    (∀ (h : planChunks T M pid sha ≠ []),
      ((planChunks T M pid sha).getLast h).endOffset = T) := by
  obtain ⟨hq1, hq2, hq3⟩ := ceil_div_bounds T M hT hM
  have hlen : (planChunks T M pid sha).length = ((T + M - 1) / M).toNat :=
    planChunks_length T M pid sha
  have hlenInt : ((planChunks T M pid sha).length : Int) = (T + M - 1) / M := by
    rw [hlen]
    exact Int.toNat_of_nonneg (le_of_lt hq3)
  have hpos : 0 < (planChunks T M pid sha).length := by omega
  have hlast : ∀ i : Nat, i < (planChunks T M pid sha).length →
      (i : Int) * M < T := by
    intro i hi
    have hi2 : (i : Int) ≤ (T + M - 1) / M - 1 := by omega
    have h5 : (i : Int) * M ≤ ((T + M - 1) / M - 1) * M :=
      mul_le_mul_of_nonneg_right hi2 (le_of_lt hM)
    have h6 : ((T + M - 1) / M - 1) * M = ((T + M - 1) / M) * M - M := by ring
    linarith
  refine ⟨List.length_pos.mp hpos, by rw [hlenInt]; exact hq1,
    by rw [hlenInt]; exact hq2, ?_, ?_, ?_, ?_⟩
  · intro i h
    rw [planChunks_get T M pid sha i h]
    refine ⟨rfl, rfl, rfl, rfl, ?_, ?_⟩
    · dsimp only
      have h4 := hlast i h
      omega
    · dsimp only
      have h4 := hlast i h
      omega
  · intro h
    rw [planChunks_get T M pid sha 0 h]
    simp
  · intro i hi
    rw [planChunks_get T M pid sha i (Nat.lt_of_succ_lt hi),
      planChunks_get T M pid sha (i + 1) hi]
    dsimp only
    have h4 := hlast (i + 1) hi
    have h5 : ((i + 1 : Nat) : Int) = (i : Int) + 1 := by push_cast; ring
    have h6 : (i : Int) * M + M = ((i : Int) + 1) * M := by ring
    rw [h5] at h4 ⊢
    rw [h6]
    constructor
    · rw [min_eq_left (le_of_lt h4)]
    · rw [min_eq_left (le_of_lt h4)]
      ring
  · intro h
    rw [List.getLast_eq_getElem]
    have hlt : (planChunks T M pid sha).length - 1 <
        (planChunks T M pid sha).length := by omega
    have hgl : (planChunks T M pid sha)[(planChunks T M pid sha).length - 1] =
        (planChunks T M pid sha).get
          ⟨(planChunks T M pid sha).length - 1, hlt⟩ := rfl
    rw [hgl, planChunks_get]
    dsimp only
    have hc : (((planChunks T M pid sha).length - 1 : Nat) : Int) =
        ((planChunks T M pid sha).length : Int) - 1 := by omega
    rw [hc]
    have h7 : (((planChunks T M pid sha).length : Int) - 1) * M + M =
        ((planChunks T M pid sha).length : Int) * M := by ring
    rw [h7, hlenInt]
    exact min_eq_right hq1

/-- Witness for C2: the layout planned for a ten-byte file with
four-byte chunks is nonempty (it has three chunks `[0,4) [4,8) [8,10)`). -/
theorem C2_chunk_plan_layout_witness :
    (0 : Int) < 10 ∧ (0 : Int) < 4 ∧
    planChunks 10 4 (fun _ => "") (fun _ => "") ≠ [] :=
  ⟨by decide, by decide,
   (C2_chunk_plan_layout 10 4 (fun _ => "") (fun _ => "")
     (by decide) (by decide)).1⟩

/-! ## Claim C4 -/

/-- Claim C4: `RangeRead` rejects a request with `start < 0` or
`start >= fileSize` with an error — `rangeRead` itself performs no chunk
resolution and no network operation (those happen only inside
`chunkedRead`), so the rejection precedes any such operation — and on the
accepted path the derived end `start + length` is clamped to `fileSize`,
with the sentinel `length = -1` resolving to the file end. -/
theorem C4_bounds_rejection (crc : ChunkedRangeReadCloser) (rng : HttpRange) :
    (rng.start < 0 → rangeRead crc rng = .error (.invalidStart rng.start)) ∧
    (0 ≤ rng.start → crc.fileSize ≤ rng.start →
      rangeRead crc rng = .error (.startExceedsSize rng.start crc.fileSize)) ∧
    (∀ rdr, rangeRead crc rng = .ok rdr →
      rdr.requestEnd ≤ crc.fileSize ∧
      (rng.length = -1 → rdr.requestEnd = crc.fileSize) ∧
      (rng.length ≠ -1 →
        rdr.requestEnd = min (rng.start + rng.length) crc.fileSize)) := by
  refine ⟨?_, ?_, ?_⟩
  · intro h
    unfold rangeRead
    rw [if_pos h]
  · intro h1 h2
    unfold rangeRead
    rw [if_neg (by omega), if_pos (by omega)]
  · intro rdr h
    obtain ⟨_, _, _, _, _, hre, _, _, _⟩ := rangeRead_ok h
    refine ⟨?_, ?_, ?_⟩
    · rw [hre]
      exact derivedEnd_le crc.fileSize rng
    · intro hm1
      rw [hre, derivedEnd_of_neg_one crc.fileSize rng hm1]
    · intro hm1
      rw [hre, derivedEnd_of_not_neg_one crc.fileSize rng hm1]

/-- Witness for C4: a request starting at `-1` on the fixture closer is
rejected with the `invalidStart` error. -/
theorem C4_bounds_rejection_witness :
    ((-1 : Int) < 0) ∧
      rangeRead closerAB { start := -1, length := 100 } =
        .error (.invalidStart (-1)) :=
  ⟨by decide,
   (C4_bounds_rejection closerAB { start := -1, length := 100 }).1 (by decide)⟩

/-! ## Claim C5 -/

/-- Claim C5: entering a chunk wraps resolution and open in a retry loop of
at most `maxRetries = 3` attempts with a linearly increasing backoff of
`retry + 1` seconds between attempts; when resolution fails on every
attempt, exactly 3 resolve attempts occur, the sleeps between them are 1
and 2 seconds, and the final error carries the chunk index, the attempt
count 3, and the last underlying error. -/
theorem C5_retry_ceiling (inp : ReadInput) (chunkIdx : Nat) (c : FileChunk)
    (requestStart requestEnd : Int) (m0 m1 m2 : String)
    (h0 : inp.resolve 0 c.notionPageID = .error m0)
    (h1 : inp.resolve 1 c.notionPageID = .error m1)
    (h2 : inp.resolve 2 c.notionPageID = .error m2) :
    enterChunk inp chunkIdx c requestStart requestEnd =
      ([.resolve c.notionPageID, .sleep 1, .resolve c.notionPageID, .sleep 2,
        .resolve c.notionPageID],
       .error (.resolveFailed chunkIdx 3 m2)) := by
  simp [enterChunk, attemptLoop, maxRetries, h0, h1, h2]

/-- Witness for C5: in the all-failures world, entering chunk 0 of the
fixture layout for request `[1, 5)` performs exactly three resolve
attempts with sleeps of 1 and 2 seconds and fails with retry count 3. -/
theorem C5_retry_ceiling_witness :
    failingInput.resolve 0 chunkA.notionPageID = .error "boom" ∧
    failingInput.resolve 1 chunkA.notionPageID = .error "boom" ∧
    failingInput.resolve 2 chunkA.notionPageID = .error "boom" ∧
    enterChunk failingInput 0 chunkA 1 5 =
      ([.resolve "p0", .sleep 1, .resolve "p0", .sleep 2, .resolve "p0"],
       .error (.resolveFailed 0 3 "boom")) :=
  ⟨rfl, rfl, rfl,
   C5_retry_ceiling failingInput 0 chunkA 1 5 "boom" "boom" "boom" rfl rfl rfl⟩

/-! ## Claim C6 -/

/-- Counterexample to claim C6 as stated: a file of exactly
`5 * 1024 * 1024 * 1024` bytes — at the 5 GiB backend limit, hence "at or
above" it — takes the single-file path, because `Put` tests
`fileSize > ChunkThreshold` strictly. -/
theorem C6_counterexample :
    putDispatch (5 * 1024 * 1024 * 1024) = PutPath.single ∧
      (5 * 1024 * 1024 * 1024 : Int) = ChunkThreshold :=
  ⟨by decide, by decide⟩

/-- Claim C6 (amended): `Put` takes the chunked path exactly for inputs
strictly above the 5 GiB `ChunkThreshold` and the single-file path for
inputs at or below it; the chunked path plans with the 4.5 GiB
`MaxChunkSize` constant. -/
theorem C6_put_dispatch (fileSize : Int) (pageIDs shas : Nat → String) :
    (putDispatch fileSize = PutPath.chunked ↔ ChunkThreshold < fileSize) ∧
    (putDispatch fileSize = PutPath.single ↔ fileSize ≤ ChunkThreshold) ∧
    putChunkedPlan fileSize pageIDs shas =
      planChunks fileSize MaxChunkSize pageIDs shas ∧
    2 * MaxChunkSize = 9 * 1024 * 1024 * 1024 ∧
    ChunkThreshold = 5 * 1024 * 1024 * 1024 := by
  refine ⟨?_, ?_, rfl, by decide, by decide⟩
  · unfold putDispatch
    split
    · next hgt => simp only [gt_iff_lt] at hgt; simp [hgt]
    · next hle =>
      simp only [gt_iff_lt, not_lt] at hle
      constructor
      · intro hc
        cases hc
      · intro hc
        omega
  · unfold putDispatch
    split
    · next hgt =>
      simp only [gt_iff_lt] at hgt
      constructor
      · intro hc
        cases hc
      · intro hc
        omega
    · next hle =>
      simp only [gt_iff_lt, not_lt] at hle
      simp [hle]

/-! ## Claim C7 -/

/-- Claim C7: exhaustion is idempotent and terminal — once the reader has
delivered `requestEnd - requestStart` bytes, or has no open body and its
chunk cursor is past the last chunk, `Read` returns zero bytes and the
end-of-data signal, leaves the state unchanged (so every subsequent call
behaves identically), and performs no resolution, open, sleep or body
read. -/
theorem C7_exhaustion_idempotent (inp : ReadInput) (bufSize : Nat)
    (r : ChunkedReader)
    (h : r.requestEnd - r.requestStart ≤ r.totalRead ∨
         (r.currentReader = none ∧ r.chunks.length ≤ r.currentChunk)) :
    chunkedRead inp bufSize r = ([], [], some .eof, r) := by
  unfold chunkedRead
  rcases h with h | ⟨h1, h2⟩
  · rw [if_pos (by omega)]
  · split
    · rfl
    · rw [h1]
      rw [dif_neg (by omega)]

/-- Witness for C7: a fixture reader that has delivered all four requested
bytes signals end-of-data and is left unchanged, even in the all-failures
world. -/
theorem C7_exhaustion_idempotent_witness :
    (readerDone.requestEnd - readerDone.requestStart ≤ readerDone.totalRead ∨
      (readerDone.currentReader = none ∧
        readerDone.chunks.length ≤ readerDone.currentChunk)) ∧
    chunkedRead failingInput 16 readerDone = ([], [], some .eof, readerDone) :=
  ⟨Or.inl (by decide),
   C7_exhaustion_idempotent failingInput 16 readerDone (Or.inl (by decide))⟩

/-! ## Claim C9 -/

/-- Claim C9: as long as the underlying body honours the read contract
(never returning more bytes than the buffer passed to it), `totalRead`
never exceeds the requested length `requestEnd - requestStart`, because
every `Read` call truncates the caller's buffer to the remaining request
length before reading — every body read it issues has capacity at most
`requestEnd - requestStart - totalRead` — and it signals end-of-data once
the cap is reached. -/
theorem C9_total_read_bounded (inp : ReadInput) (bufSize : Nat)
    (r : ChunkedReader)
    (hcap : ∀ h cap, ((inp.bodyRead h cap).1).length ≤ cap)
    (ht : r.totalRead ≤ r.requestEnd - r.requestStart) :
    ((chunkedRead inp bufSize r).2.2.2).totalRead ≤
        r.requestEnd - r.requestStart ∧
    (∀ cap, ReadAction.bodyRead cap ∈ (chunkedRead inp bufSize r).1 →
      (cap : Int) ≤ r.requestEnd - r.requestStart - r.totalRead) := by
  unfold chunkedRead
  split
  · refine ⟨ht, ?_⟩
    intro cap hc
    simp at hc
  · next hlt0 =>
    rcases hcr : r.currentReader with _ | hb
    · -- no open reader: enter a chunk first
      simp only [hcr]
      by_cases hcc : r.currentChunk < r.chunks.length
      · rw [dif_pos hcc]
        rcases henter : enterChunk inp r.currentChunk
            (r.chunks.get ⟨r.currentChunk, hcc⟩) r.requestStart r.requestEnd
          with ⟨acts, res⟩
        have hacts := enterChunk_actions inp r.currentChunk
          (r.chunks.get ⟨r.currentChunk, hcc⟩) r.requestStart r.requestEnd
        rw [henter] at hacts
        rcases res with e | hb
        · simp only [henter]
          refine ⟨ht, ?_⟩
          intro cap hc
          rcases hacts _ hc with habs | ⟨u, habs⟩ | ⟨k, habs⟩ <;> cases habs
        · simp only [henter, prependActs]
          obtain ⟨bs, err, r2, heq, hbs, htr, _, _, _⟩ :=
            readBody_spec inp bufSize
              (openedOn r (r.chunks.get ⟨r.currentChunk, hcc⟩) hb) hb
          rw [heq]
          have hbs2 : bs = (inp.bodyRead hb (min bufSize
              (r.requestEnd - r.requestStart - r.totalRead).toNat)).1 := hbs
          have htr2 : r2.totalRead = r.totalRead + bs.length := htr
          constructor
          · have hl := hcap hb (min bufSize
              (r.requestEnd - r.requestStart - r.totalRead).toNat)
            rw [← hbs2] at hl
            dsimp only
            omega
          · intro cap hc
            dsimp only at hc
            rw [List.mem_append] at hc
            rcases hc with hc | hc
            · rcases hacts _ hc with habs | ⟨u, habs⟩ | ⟨k, habs⟩ <;> cases habs
            · have hceq : cap = min bufSize
                  (r.requestEnd - r.requestStart - r.totalRead).toNat := by
                simpa [openedOn] using hc
              omega
      · rw [dif_neg hcc]
        refine ⟨ht, ?_⟩
        intro cap hc
        simp at hc
    · -- an open reader: a plain body read
      simp only [hcr]
      obtain ⟨bs, err, r2, heq, hbs, htr, _, _, _⟩ :=
        readBody_spec inp bufSize r hb
      rw [heq]
      constructor
      · have hl := hcap hb (min bufSize
          (r.requestEnd - r.requestStart - r.totalRead).toNat)
        rw [← hbs] at hl
        dsimp only
        omega
      · intro cap hc
        have hceq : cap = min bufSize
            (r.requestEnd - r.requestStart - r.totalRead).toNat := by
          simpa using hc
        omega

/-- Witness for C9: one read of the fixture mid-stream reader in the
successful world keeps `totalRead` within the requested four bytes and
capped its body read at the remaining three. -/
theorem C9_total_read_bounded_witness :
    (∀ h cap, (((successInput contentAB).bodyRead h cap).1).length ≤ cap) ∧
    readerMid.totalRead ≤ readerMid.requestEnd - readerMid.requestStart ∧
    ((chunkedRead (successInput contentAB) 16 readerMid).2.2.2).totalRead ≤
      readerMid.requestEnd - readerMid.requestStart ∧
    (∀ cap,
      ReadAction.bodyRead cap ∈ (chunkedRead (successInput contentAB) 16
        readerMid).1 →
      (cap : Int) ≤ readerMid.requestEnd - readerMid.requestStart -
        readerMid.totalRead) := by
  have hcap : ∀ h cap,
      (((successInput contentAB).bodyRead h cap).1).length ≤ cap := by
    intro h cap
    rcases h with _ | ⟨b, h⟩
    · simp [successInput]
    · simp [successInput]
  have ht : readerMid.totalRead ≤
      readerMid.requestEnd - readerMid.requestStart := by decide
  have := C9_total_read_bounded (successInput contentAB) 16 readerMid hcap ht
  exact ⟨hcap, ht, this.1, this.2⟩

/-! ## Claim C8 -/

/-- Claim C8: a non-EOF error of the open remote read makes `Read` return
the bytes read so far together with the error, discard the reader handle
(`currentReader = none`) and leave the chunk cursor unchanged; the next
`Read` call (under any oracle and buffer size) can only resolve the same
chunk's page and can only open reads with the original intra-chunk
sub-range recomputed from the request bounds and the chunk's offsets —
independent of how many bytes were already delivered. -/
theorem C8_transfer_error_same_chunk (inp inp2 : ReadInput)
    (bufSize bufSize2 : Nat) (r : ChunkedReader) (hb bs h2 : Bytes)
    (msg : String)
    (hcr : r.currentReader = some hb)
    (ht : r.totalRead < r.requestEnd - r.requestStart)
    (hbody : inp.bodyRead hb (min bufSize
        (r.requestEnd - r.requestStart - r.totalRead).toNat) =
      (bs, some (.failed msg), h2)) :
    chunkedRead inp bufSize r =
      ([.bodyRead (min bufSize
          (r.requestEnd - r.requestStart - r.totalRead).toNat)], bs,
        some (.transfer msg),
        { r with currentReader := none,
                 totalRead := r.totalRead + bs.length }) ∧
    (∀ (hcc : r.currentChunk < r.chunks.length),
      (∀ u o l, ReadAction.openRead u o l ∈ (chunkedRead inp2 bufSize2
          { r with currentReader := none,
                   totalRead := r.totalRead + bs.length }).1 →
        o = subStart r.requestStart (r.chunks.get ⟨r.currentChunk, hcc⟩) ∧
        l = subEnd r.requestEnd (r.chunks.get ⟨r.currentChunk, hcc⟩) -
          subStart r.requestStart (r.chunks.get ⟨r.currentChunk, hcc⟩)) ∧
      (∀ pid, ReadAction.resolve pid ∈ (chunkedRead inp2 bufSize2
          { r with currentReader := none,
                   totalRead := r.totalRead + bs.length }).1 →
        pid = (r.chunks.get ⟨r.currentChunk, hcc⟩).notionPageID)) := by
  constructor
  · unfold chunkedRead
    rw [if_neg (by omega)]
    simp only [hcr]
    simp only [readBody, hbody]
  · intro hcc
    have key := chunkedRead_actions_none inp2 bufSize2
      { r with currentReader := none, totalRead := r.totalRead + bs.length }
      rfl hcc
    constructor
    · intro u o l hmem
      rcases key _ hmem with h | ⟨u2, h⟩ | ⟨k, h⟩ | ⟨cap, h⟩
      · cases h
      · rw [ReadAction.openRead.injEq] at h
        exact ⟨h.2.1, h.2.2⟩
      · cases h
      · cases h
    · intro pid hmem
      rcases key _ hmem with h | ⟨u2, h⟩ | ⟨k, h⟩ | ⟨cap, h⟩
      · rw [ReadAction.resolve.injEq] at h
        exact h
      · cases h
      · cases h
      · cases h

/-- Witness for C8: in the body-failure world, one read of the fixture
mid-stream reader returns the transfer error, keeps the chunk cursor at 0,
and discards the open body. -/
theorem C8_transfer_error_same_chunk_witness :
    readerMid.currentReader = some [12, 13] ∧
    readerMid.totalRead < readerMid.requestEnd - readerMid.requestStart ∧
    bodyFailInput.bodyRead [12, 13] (min 16
        (readerMid.requestEnd - readerMid.requestStart -
          readerMid.totalRead).toNat) = ([7], some (.failed "conn"), []) ∧
    chunkedRead bodyFailInput 16 readerMid =
      ([.bodyRead (min 16
          (readerMid.requestEnd - readerMid.requestStart -
            readerMid.totalRead).toNat)], [7],
        some (.transfer "conn"),
        { readerMid with currentReader := none,
                         totalRead := readerMid.totalRead + 1 }) :=
  ⟨rfl, by decide, rfl,
   (C8_transfer_error_same_chunk bodyFailInput (successInput contentAB) 16 4
      readerMid [12, 13] [7] [] "conn" rfl (by decide) rfl).1⟩

/-! ## Claim C3 -/

/-- Claim C3: a chunk is selected by `RangeRead` if and only if it
satisfies the strict overlap predicate `startOffset < requestEnd ∧
endOffset > start`; the selected list is a sublist of the stored list
(ascending index order preserved); entering any selected chunk can only
open a remote read at the intra-chunk sub-range
`[max(start, startOffset) - startOffset, min(end, endOffset) -
startOffset)`; and when no chunk overlaps, `RangeRead` fails with the
error carrying the request bounds, the file size and the total chunk
count. -/
theorem C3_selection_and_sub_ranges (crc : ChunkedRangeReadCloser)
    (rng : HttpRange) :
    (∀ rdr, rangeRead crc rng = .ok rdr →
      rdr.chunks.Sublist crc.chunks ∧
      (∀ ch ∈ crc.chunks, ch ∈ rdr.chunks ↔
        (ch.startOffset < rdr.requestEnd ∧ rng.start < ch.endOffset)) ∧
      (∀ inp chunkIdx ch u o l, ch ∈ rdr.chunks →
        ReadAction.openRead u o l ∈
          (enterChunk inp chunkIdx ch rdr.requestStart rdr.requestEnd).1 →
        o = subStart rdr.requestStart ch ∧ o + l = subEnd rdr.requestEnd ch)) ∧
    (0 ≤ rng.start → rng.start < crc.fileSize →
      (∀ ch ∈ crc.chunks,
        overlapsB rng.start (derivedEnd crc.fileSize rng) ch = false) →
      rangeRead crc rng = .error (.noChunksFound rng.start
        (derivedEnd crc.fileSize rng - 1) crc.fileSize crc.chunks.length)) := by
  constructor
  · intro rdr h
    obtain ⟨hs0, hs1, hchunks, _, hrs, hre, _, _, _⟩ := rangeRead_ok h
    refine ⟨?_, ?_, ?_⟩
    · rw [hchunks]
      exact List.filter_sublist crc.chunks
    · intro ch hch
      rw [hchunks, List.mem_filter, hre]
      unfold overlapsB
      simp only [Bool.and_eq_true, decide_eq_true_eq, gt_iff_lt]
      tauto
    · intro inp chunkIdx ch u o l _ hmem
      rcases enterChunk_actions inp chunkIdx ch rdr.requestStart
          rdr.requestEnd _ hmem with habs | ⟨u2, heq⟩ | ⟨k, habs⟩
      · cases habs
      · rw [ReadAction.openRead.injEq] at heq
        refine ⟨heq.2.1, ?_⟩
        rw [heq.2.1, heq.2.2]
        omega
      · cases habs
  · intro h0 h1 hnone
    unfold rangeRead
    rw [if_neg (by omega), if_neg (by omega)]
    dsimp only
    rw [List.filter_eq_nil_iff.mpr (fun ch hch => by rw [hnone ch hch]; simp)]
    rfl

/-- Witness for C3: for the fixture request `[1, 5)` the selected list is a
sublist of the stored chunk list. -/
theorem C3_selection_and_sub_ranges_witness :
    rangeRead closerAB { start := 1, length := 4 } = .ok readerFresh ∧
    readerFresh.chunks.Sublist closerAB.chunks :=
  ⟨rfl,
   ((C3_selection_and_sub_ranges closerAB { start := 1, length := 4 }).1
     readerFresh rfl).1⟩

/-! ## Claim C10 -/

/-- Claim C10: a zero-length request whose (valid) start coincides with a
chunk boundary selects no chunk under the strict overlap predicate, so
`RangeRead` fails with the "no chunks found" error; a zero-length request
whose start lies strictly inside some chunk yields a reader whose every
`Read` call immediately signals end-of-data with no bytes. -/
theorem C10_zero_length_requests (crc : ChunkedRangeReadCloser) (start : Int)
    (hwf : contiguousFromB 0 crc.chunks = true)
    (h0 : 0 ≤ start) (h1 : start < crc.fileSize) :
    ((∃ c0 ∈ crc.chunks, c0.startOffset = start) →
      rangeRead crc { start := start, length := 0 } =
        .error (.noChunksFound start (start - 1) crc.fileSize
          crc.chunks.length)) ∧
    (∀ c ∈ crc.chunks, c.startOffset < start → start < c.endOffset →
      ∃ rdr, rangeRead crc { start := start, length := 0 } = .ok rdr ∧
        ∀ inp bufSize, chunkedRead inp bufSize rdr =
          ([], [], some .eof, rdr)) := by
  have he : derivedEnd crc.fileSize { start := start, length := 0 } = start := by
    rw [derivedEnd_of_not_neg_one crc.fileSize { start := start, length := 0 }
      (show (0 : Int) ≠ -1 by decide)]
    show min (start + 0) crc.fileSize = start
    omega
  have hoverlap : ∀ ch, overlapsB start start ch =
      (decide (ch.startOffset < start) && decide (ch.endOffset > start)) :=
    fun ch => rfl
  constructor
  · intro hex
    have hnone : ∀ ch ∈ crc.chunks, overlapsB start start ch = false := by
      intro ch hch
      rw [hoverlap]
      rcases contigB_boundary hwf hex ch hch with hle | hge
      · have hd : decide (ch.endOffset > start) = false := by
          simp only [decide_eq_false_iff_not]
          omega
        rw [hd, Bool.and_false]
      · have hd : decide (ch.startOffset < start) = false := by
          simp only [decide_eq_false_iff_not]
          omega
        rw [hd, Bool.false_and]
    unfold rangeRead
    rw [if_neg (show ¬start < 0 by omega),
      if_neg (show ¬start ≥ crc.fileSize by omega)]
    dsimp only
    rw [he]
    rw [List.filter_eq_nil_iff.mpr (fun ch hch => by
      rw [hnone ch hch]
      exact Bool.false_ne_true)]
    rfl
  · intro c hc hlt1 hlt2
    have hmem : c ∈ crc.chunks.filter (overlapsB start start) := by
      rw [List.mem_filter]
      refine ⟨hc, ?_⟩
      rw [hoverlap]
      simp only [Bool.and_eq_true, decide_eq_true_eq, gt_iff_lt]
      exact ⟨hlt1, hlt2⟩
    have hne : ¬(crc.chunks.filter (overlapsB start start)).isEmpty = true := by
      rw [List.isEmpty_iff]
      intro hnil
      rw [hnil] at hmem
      cases hmem
    refine ⟨{ chunks := crc.chunks.filter (overlapsB start start),
              requestStart := start, requestEnd := start, currentChunk := 0,
              currentReader := none, currentOffset := 0, totalRead := 0 },
      ?_, ?_⟩
    · unfold rangeRead
      rw [if_neg (show ¬start < 0 by omega),
        if_neg (show ¬start ≥ crc.fileSize by omega)]
      dsimp only
      rw [he]
      rw [if_neg hne]
    · intro inp bufSize
      unfold chunkedRead
      rw [if_pos (show (0 : Int) ≥ start - start by omega)]

/-! ## Lemmas for claim C1: the success-path run -/

lemma endOf_cons (off : Int) (c : FileChunk) (rest : List FileChunk) :
    endOf off (c :: rest) = endOf c.endOffset rest := rfl

lemma chainCov_filter (s e : Int) : ∀ (cs : List FileChunk) (off : Int),
    contiguousFromB off cs = true → max s off < e → e ≤ endOf off cs →
    chainCov s e (max s off) (cs.filter (overlapsB s e)) := by
  intro cs
  induction cs with
  | nil =>
    intro off hc hlt hle
    simp only [endOf] at hle
    simp only [List.filter_nil, chainCov]
    omega
  | cons c rest ih =>
    intro off hc hlt hle
    rw [contigB_cons] at hc
    obtain ⟨h1, h2, h3⟩ := hc
    rw [endOf_cons] at hle
    by_cases hcs : c.endOffset ≤ s
    · -- the head chunk ends at or before the request: not selected
      have hdrop : ¬overlapsB s e c = true := by
        unfold overlapsB
        simp only [Bool.and_eq_true, decide_eq_true_eq, gt_iff_lt]
        omega
      rw [List.filter_cons_of_neg hdrop]
      have hmax2 : max s off = s := max_eq_left (by omega)
      have hmax3 : max s c.endOffset = s := max_eq_left hcs
      have := ih c.endOffset h3 (by omega) hle
      rw [hmax3] at this
      rw [hmax2]
      exact this
    · -- the head chunk is selected
      push_neg at hcs
      have hkeep : overlapsB s e c = true := by
        unfold overlapsB
        simp only [Bool.and_eq_true, decide_eq_true_eq, gt_iff_lt]
        constructor
        · have := le_max_right s off
          omega
        · exact hcs
      rw [List.filter_cons_of_pos hkeep]
      simp only [chainCov]
      refine ⟨by rw [h1], by omega, ?_⟩
      intro hce
      have := ih c.endOffset h3 (by omega) hle
      rw [max_eq_right (le_of_lt hcs)] at this
      exact this

lemma enterChunk_success (content : String → Bytes) (chunkIdx : Nat)
    (c : FileChunk) (s e : Int) (hlen : 0 < subEnd e c - subStart s c) :
    enterChunk (successInput content) chunkIdx c s e =
      ([.resolve c.notionPageID, .openRead c.notionPageID (subStart s c)
          (subEnd e c - subStart s c)],
       .ok (((content c.notionPageID).drop (subStart s c).toNat).take
          (subEnd e c - subStart s c).toNat)) := by
  simp [enterChunk, attemptLoop, maxRetries, successInput, hlen]

lemma readBody_success_step (data : Bytes) (content : String → Bytes)
    (s e : Int) (bufSize : Nat) (hbuf : 0 < bufSize) (r : ChunkedReader)
    (rem : Bytes) (hInv : ReaderInv data content s e r)
    (hcr : r.currentReader = some rem) (ht : r.totalRead < e - s) :
    ∃ acts bs r2,
      readBody (successInput content) bufSize r rem = (acts, bs, none, r2) ∧
      ReaderInv data content s e r2 ∧
      readerFuel r2 < readerFuel r ∧
      r.totalRead ≤ r2.totalRead ∧ s + r2.totalRead ≤ e ∧
      bs = sliceI data (s + r.totalRead) (s + r2.totalRead) := by
  obtain ⟨hrs, hre, hs0, hed, ht0, htL, hch, hcond⟩ := hInv
  obtain ⟨c, rest, hdrop, hrem, hposm, hcc2⟩ := (hcond ht).2 rem hcr
  have hcc : r.currentChunk < r.chunks.length := by
    by_contra hge
    push_neg at hge
    rw [List.drop_eq_nil_of_le hge] at hdrop
    cases hdrop
  have hm_e : min e c.endOffset ≤ e := min_le_left _ _
  have hremlen : rem.length = (min e c.endOffset - (s + r.totalRead)).toNat := by
    rw [hrem, sliceI_length]
    omega
  rcases hremE : rem with _ | ⟨b, rem0⟩
  · -- the open body is exhausted: clean end of data, advance the cursor
    have hpm : min e c.endOffset = s + r.totalRead := by
      rw [hremE] at hremlen
      simp at hremlen
      omega
    have hce : c.endOffset = s + r.totalRead ∧ c.endOffset < e := by omega
    have hcov : chainCov s e c.endOffset (r.chunks.drop (r.currentChunk + 1)) :=
      hcc2 hce.2
    have hrestne : r.chunks.drop (r.currentChunk + 1) ≠ [] := by
      intro hnil
      rw [hnil] at hcov
      simp only [chainCov] at hcov
      omega
    have hcc1 : r.currentChunk + 1 < r.chunks.length := by
      by_contra hge
      push_neg at hge
      exact hrestne (List.drop_eq_nil_of_le hge)
    refine ⟨[.bodyRead (min bufSize
        (r.requestEnd - r.requestStart - r.totalRead).toNat)], [],
      { r with currentReader := none, currentChunk := r.currentChunk + 1,
               totalRead := r.totalRead }, ?_, ?_, ?_, ?_, ?_, ?_⟩
    · simp only [readBody, successInput]
      rw [if_pos (by
        rw [hrs, hre]
        simp only [List.length_nil, Nat.cast_zero, add_zero]
        constructor <;> omega)]
      simp
    · refine ⟨hrs, hre, hs0, hed, ht0, htL, hch, ?_⟩
      intro _
      constructor
      · intro _
        show chainCov s e (s + r.totalRead)
          (r.chunks.drop (r.currentChunk + 1))
        rw [← hce.1]
        exact hcov
      · intro rem2 habs
        cases habs
    · unfold readerFuel
      dsimp only
      omega
    · exact le_refl _
    · show s + r.totalRead ≤ e
      omega
    · rw [sliceI_eq_nil (le_refl _)]
  · -- bytes remain: deliver up to the buffer / remaining-request cap
    rw [← hremE]
    have hremne : rem ≠ [] := by rw [hremE]; exact List.cons_ne_nil b rem0
    have hpm : s + r.totalRead < min e c.endOffset := by
      rcases lt_or_ge (s + r.totalRead) (min e c.endOffset) with h | h
      · exact h
      · exfalso
        apply hremne
        rw [hrem]
        exact sliceI_eq_nil (by omega)
    set cap := min bufSize (e - s - r.totalRead).toNat with hcap
    have hcappos : 0 < cap := by
      rw [hcap]
      omega
    have hn : (rem.take cap).length =
        min cap (min e c.endOffset - (s + r.totalRead)).toNat := by
      rw [List.length_take, hremlen]
    have hnpos : 0 < (rem.take cap).length := by
      rw [hn]
      omega
    have hnle : ((rem.take cap).length : Int) ≤
        min e c.endOffset - (s + r.totalRead) := by
      rw [hn]
      omega
    refine ⟨[.bodyRead cap], rem.take cap,
      { r with currentReader := some (rem.drop cap),
               totalRead := r.totalRead + (rem.take cap).length },
      ?_, ?_, ?_, ?_, ?_, ?_⟩
    · rw [hremE]
      simp only [readBody, successInput]
      rw [← hremE]
      have hcap2 : min bufSize
          ((r.requestEnd - r.requestStart - r.totalRead)).toNat = cap := by
        rw [hrs, hre, hcap]
      rw [hcap2]
    · refine ⟨hrs, hre, hs0, hed,
        (by show (0 : Int) ≤ r.totalRead + ((rem.take cap).length : Int)
            omega),
        (by show r.totalRead + ((rem.take cap).length : Int) ≤ e - s
            omega), hch, ?_⟩
      intro _
      constructor
      · intro habs
        cases habs
      · intro rem2 heq2
        injection heq2 with heq2
        refine ⟨c, rest, hdrop, ?_, ?_, hcc2⟩
        · rw [← heq2]
          show rem.drop cap = sliceI data
            (s + (r.totalRead + ((rem.take cap).length : Int)))
            (min e c.endOffset)
          generalize hgen : ((rem.take cap).length : Int) = nI
          rw [hrem, sliceI_drop (by omega) cap]
          congr 1
          omega
        · show s + (r.totalRead + ((rem.take cap).length : Int)) ≤
            min e c.endOffset
          omega
    · unfold readerFuel
      dsimp only
      omega
    · show r.totalRead ≤ r.totalRead + ((rem.take cap).length : Int)
      omega
    · show s + (r.totalRead + ((rem.take cap).length : Int)) ≤ e
      omega
    · show rem.take cap = sliceI data (s + r.totalRead)
        (s + (r.totalRead + ((rem.take cap).length : Int)))
      generalize hgen : ((rem.take cap).length : Int) = nI
      rw [hrem, sliceI_take cap]
      congr 1
      omega

lemma runReads_success (data : Bytes) (content : String → Bytes) (s e : Int)
    (bufSize : Nat) (hbuf : 0 < bufSize) :
    ∀ (fuel : Nat) (r : ChunkedReader), ReaderInv data content s e r →
      readerFuel r ≤ fuel →
      runReads (successInput content) bufSize fuel r =
        (sliceI data (s + r.totalRead) e, some .eof) := by
  intro fuel
  induction fuel with
  | zero =>
    intro r _ hf
    exfalso
    unfold readerFuel at hf
    omega
  | succ n ih =>
    intro r hInv hf
    obtain ⟨hrs, hre, hs0, hed, ht0, htL, hch, hcond⟩ := hInv
    by_cases ht : e - s ≤ r.totalRead
    · -- the request is already satisfied: the final end-of-data call
      have hstep : chunkedRead (successInput content) bufSize r =
          ([], [], some .eof, r) := by
        unfold chunkedRead
        rw [if_pos (by rw [hrs, hre]; omega)]
      simp only [runReads, hstep]
      rw [sliceI_eq_nil (by omega)]
    · push_neg at ht
      have hInv0 : ReaderInv data content s e r :=
        ⟨hrs, hre, hs0, hed, ht0, htL, hch, hcond⟩
      rcases hcr : r.currentReader with _ | rem
      · -- no open body: enter the current chunk, then read from it
        have hcov := (hcond ht).1 hcr
        rcases hdrop : r.chunks.drop r.currentChunk with _ | ⟨c, rest⟩
        · rw [hdrop] at hcov
          simp only [chainCov] at hcov
          omega
        · rw [hdrop] at hcov
          simp only [chainCov] at hcov
          obtain ⟨hmax, hpc, hcondc⟩ := hcov
          have hcc : r.currentChunk < r.chunks.length := by
            by_contra hge
            push_neg at hge
            rw [List.drop_eq_nil_of_le hge] at hdrop
            cases hdrop
          have hdg := List.drop_eq_getElem_cons hcc
          rw [hdrop] at hdg
          injection hdg with hdg1 hdg2
          have hmemc : c ∈ r.chunks := by
            rw [hdg1]
            exact List.getElem_mem hcc
          obtain ⟨hcontc, hcs0⟩ := hch c hmemc
          have hcs_le : c.startOffset ≤ s + r.totalRead := by
            have := le_max_right s c.startOffset
            omega
          have hpm : s + r.totalRead < min e c.endOffset := by omega
          have hsub : subStart s c = s + r.totalRead - c.startOffset := by
            unfold subStart
            omega
          have hsubE : subEnd e c - subStart s c =
              min e c.endOffset - (s + r.totalRead) := by
            unfold subStart subEnd
            omega
          have hopen := enterChunk_success content r.currentChunk c s e
            (by omega)
          have hhandle : ((content c.notionPageID).drop
              (subStart s c).toNat).take (subEnd e c - subStart s c).toNat =
              sliceI data (s + r.totalRead) (min e c.endOffset) := by
            rw [hcontc, hsubE, hsub]
            exact chunkBytes_slice hcs0 hcs_le (le_of_lt hpm)
              (min_le_right _ _)
          have hgetc : r.chunks.get ⟨r.currentChunk, hcc⟩ = c := by
            rw [List.get_eq_getElem, ← hdg1]
          have hInv1 : ReaderInv data content s e
              (openedOn r c (sliceI data (s + r.totalRead)
                (min e c.endOffset))) := by
            refine ⟨hrs, hre, hs0, hed, ht0, htL, hch, ?_⟩
            intro _
            refine ⟨?_, ?_⟩
            · intro habs
              exact Option.noConfusion habs
            · intro rem2 heq2
              have heq3 : sliceI data (s + r.totalRead) (min e c.endOffset)
                  = rem2 := by
                injection heq2
              refine ⟨c, rest, ?_, ?_, ?_, ?_⟩
              · show r.chunks.drop r.currentChunk = c :: rest
                exact hdrop
              · rw [← heq3]
                rfl
              · show s + r.totalRead ≤ min e c.endOffset
                omega
              · intro hce
                show chainCov s e c.endOffset
                  (r.chunks.drop (r.currentChunk + 1))
                rw [← hdg2]
                exact hcondc hce
          obtain ⟨acts2, bs, r2, hstep2, hInv3, hfuel2, hmono, hle2, hbs⟩ :=
            readBody_success_step data content s e bufSize hbuf
              (openedOn r c (sliceI data (s + r.totalRead)
                (min e c.endOffset)))
              (sliceI data (s + r.totalRead) (min e c.endOffset))
              hInv1 rfl ht
          have hread : chunkedRead (successInput content) bufSize r =
              (([.resolve c.notionPageID,
                 .openRead c.notionPageID (subStart s c)
                   (subEnd e c - subStart s c)] : List ReadAction) ++ acts2,
               bs, none, r2) := by
            unfold chunkedRead
            rw [if_neg (by rw [hrs, hre]; omega)]
            simp only [hcr]
            rw [dif_pos hcc, hgetc, hrs, hre, hopen, hhandle]
            simp only [prependActs, hstep2]
          have hfr1 : readerFuel (openedOn r c (sliceI data (s + r.totalRead)
              (min e c.endOffset))) = readerFuel r := rfl
          simp only [runReads, hread]
          rw [ih r2 hInv3 (by omega)]
          rw [hbs]
          have hmono2 : r.totalRead ≤ r2.totalRead := hmono
          have hq : (openedOn r c (sliceI data (s + r.totalRead)
              (min e c.endOffset))).totalRead = r.totalRead := rfl
          rw [sliceI_append (by omega) (by omega) (by omega)]
          rfl
      · -- an open body: read straight from it
        obtain ⟨acts2, bs, r2, hstep2, hInv3, hfuel2, hmono, hle2, hbs⟩ :=
          readBody_success_step data content s e bufSize hbuf r rem hInv0
            hcr ht
        have hread : chunkedRead (successInput content) bufSize r =
            (acts2, bs, none, r2) := by
          unfold chunkedRead
          rw [if_neg (by rw [hrs, hre]; omega)]
          simp only [hcr]
          exact hstep2
        simp only [runReads, hread]
        rw [ih r2 hInv3 (by omega), hbs,
          sliceI_append (by omega) (by omega) (by omega)]

lemma rangeRead_establishes_inv (data : Bytes) (content : String → Bytes)
    (crc : ChunkedRangeReadCloser) (rng : HttpRange) (rdr : ChunkedReader)
    (hwf : contiguousFromB 0 crc.chunks = true)
    (hend : endOf 0 crc.chunks = crc.fileSize)
    (hdata : (data.length : Int) = crc.fileSize)
    (hcontent : ∀ c ∈ crc.chunks, content c.notionPageID = chunkBytes data c)
    (hlen : 0 ≤ rng.length ∨ rng.length = -1)
    (hr : rangeRead crc rng = .ok rdr) :
    ReaderInv data content rdr.requestStart rdr.requestEnd rdr ∧
      rdr.totalRead = 0 := by
  obtain ⟨hs0, hs1, hchunks, hne, hrs, hre, hcc0, hcrnone, ht0⟩ :=
    rangeRead_ok hr
  have hle : derivedEnd crc.fileSize rng ≤ crc.fileSize :=
    derivedEnd_le crc.fileSize rng
  have hge : rng.start ≤ derivedEnd crc.fileSize rng :=
    derivedEnd_ge crc.fileSize rng hlen hs1
  refine ⟨⟨rfl, rfl, by omega, by omega, by omega, by omega, ?_, ?_⟩, ht0⟩
  · intro c hc
    rw [hchunks, List.mem_filter] at hc
    exact ⟨hcontent c hc.1, (contigB_mono hwf c hc.1).1⟩
  · intro hlt
    refine ⟨?_, ?_⟩
    · intro _
      rw [hcc0, List.drop_zero, hchunks, hrs, hre, ht0, add_zero]
      have hcov := chainCov_filter rng.start (derivedEnd crc.fileSize rng)
        crc.chunks 0 hwf (by omega) (by rw [hend]; omega)
      rw [max_eq_left hs0] at hcov
      exact hcov
    · intro rem habs
      rw [hcrnone] at habs
      cases habs

/-! ## Claim C1 -/

/-- Claim C1: over a chunk list satisfying the §3 contiguity invariant
(`contiguousFromB`/`endOf`), for any range request that `RangeRead`
accepts, when every chunk resolution and every remote read succeeds and
the backend honours byte ranges (the `successInput` world, where chunk
`c`'s remote object holds exactly the logical bytes
`[c.startOffset, c.endOffset)`), the returned reader's successive `Read`
calls deliver exactly the logical bytes `[requestStart, requestEnd)` — in
strictly increasing offset order and each byte exactly once, since the
delivered stream *is* the slice `sliceI data requestStart requestEnd` —
and then signal clean end-of-data: the full requested byte range is
delivered, or (when `RangeRead` rejects) the operation fails with an
error. -/
theorem C1_success_path_delivers_range (data : Bytes)
    (content : String → Bytes) (crc : ChunkedRangeReadCloser)
    (rng : HttpRange) (rdr : ChunkedReader) (bufSize fuel : Nat)
    (hwf : contiguousFromB 0 crc.chunks = true)
    (hend : endOf 0 crc.chunks = crc.fileSize)
    (hdata : (data.length : Int) = crc.fileSize)
    (hcontent : ∀ c ∈ crc.chunks, content c.notionPageID = chunkBytes data c)
    (hlen : 0 ≤ rng.length ∨ rng.length = -1)
    (hr : rangeRead crc rng = .ok rdr)
    (hbuf : 0 < bufSize)
    (hfuel : readerFuel rdr ≤ fuel) :
    runReads (successInput content) bufSize fuel rdr =
      (sliceI data rdr.requestStart rdr.requestEnd, some .eof) := by
  obtain ⟨hInv, ht0⟩ := rangeRead_establishes_inv data content crc rng rdr
    hwf hend hdata hcontent hlen hr
  have := runReads_success data content rdr.requestStart rdr.requestEnd
    bufSize hbuf fuel rdr hInv hfuel
  rw [ht0, add_zero] at this
  exact this

/-- Witness for C1: over the fixture six-byte file split `[0,4) [4,6)`, the
accepted request `[1, 5)` is delivered exactly (bytes `11 12 13 14`, which
cross the chunk boundary) followed by clean end-of-data, using a one-byte
caller buffer. -/
theorem C1_success_path_delivers_range_witness :
    contiguousFromB 0 closerAB.chunks = true ∧
    endOf 0 closerAB.chunks = closerAB.fileSize ∧
    ((dataAB.length : Int) = closerAB.fileSize) ∧
    (∀ c ∈ closerAB.chunks,
      contentAB c.notionPageID = chunkBytes dataAB c) ∧
    ((0 : Int) ≤ 4 ∨ (4 : Int) = -1) ∧
    rangeRead closerAB { start := 1, length := 4 } = .ok readerFresh ∧
    0 < 1 ∧ readerFuel readerFresh ≤ 7 ∧
    runReads (successInput contentAB) 1 7 readerFresh =
      (sliceI dataAB 1 5, some .eof) :=
  ⟨by decide, by decide, by decide, by decide, Or.inl (by decide), rfl,
   by decide, by decide,
   C1_success_path_delivers_range dataAB contentAB closerAB
     { start := 1, length := 4 } readerFresh 1 7 (by decide) (by decide)
     (by decide) (by decide) (Or.inl (by decide)) rfl (by decide) (by decide)⟩

/-- Witness for C10: on the fixture closer (whose chunk list satisfies the
contiguity invariant), the zero-length request at the chunk boundary 4 is
rejected with the "no chunks found" error. -/
theorem C10_zero_length_requests_witness :
    contiguousFromB 0 closerAB.chunks = true ∧ (0 : Int) ≤ 4 ∧
    (4 : Int) < closerAB.fileSize ∧
    (∃ c0 ∈ closerAB.chunks, c0.startOffset = 4) ∧
    rangeRead closerAB { start := 4, length := 0 } =
      .error (.noChunksFound 4 3 6 2) :=
  ⟨by decide, by decide, by decide, by decide,
   (C10_zero_length_requests closerAB 4 (by decide) (by decide) (by decide)).1
     (by decide)⟩

end Notion
